import Mathlib

/-!
Verification development for the NLU pipeline of the Jo-s-Chatbot-AI repository.

Shallow embedding conventions:
* JavaScript strings are modelled as lists of Unicode code points (`List Nat`);
  `codes` converts a Lean string literal to this representation.
* The JavaScript regular-expression class `\s` and `String.prototype.trim`
  use the ECMAScript white-space set, embedded in `jsSpace`.
* `String.prototype.toLowerCase` is embedded for the ASCII range (the only
  range exercised by the repository data and the concrete inputs here).
-/

namespace JoChatbot

/-- A JavaScript string: a list of Unicode code points. -/
abbrev Str := List Nat

/-- Code points of a Lean string literal, for concrete test inputs. -/
def codes (s : String) : Str := s.toList.map Char.toNat

/-- ECMAScript white space and line terminators: the character class `\s`
and the set removed by `String.prototype.trim`. -/
def jsSpace (c : Nat) : Bool :=
  decide ((9 ≤ c ∧ c ≤ 13) ∨ c = 32 ∨ c = 160 ∨ c = 5760 ∨
    (8192 ≤ c ∧ c ≤ 8202) ∨ c = 8232 ∨ c = 8233 ∨ c = 8239 ∨ c = 8287 ∨
    c = 12288 ∨ c = 65279)

/-- The ECMAScript character class `\w`: ASCII letters, digits and underscore. -/
def isWordChar (c : Nat) : Bool :=
  decide ((97 ≤ c ∧ c ≤ 122) ∨ (65 ≤ c ∧ c ≤ 90) ∨ (48 ≤ c ∧ c ≤ 57) ∨ c = 95)

/-- `String.prototype.toLowerCase`, restricted to the ASCII case mapping. -/
def jsLower (c : Nat) : Nat :=
  if 65 ≤ c ∧ c ≤ 90 then c + 32 else c

/-- The keep-class of the final `replace` of `preprocessText`: the complement of
`[^\w\s.,!?'-]`, i.e. word characters, white space and `. , ! ? ' -`
(code points 46, 44, 33, 63, 39, 45). -/
def allowedChar (c : Nat) : Bool :=
  isWordChar c || jsSpace c ||
    decide (c = 46 ∨ c = 44 ∨ c = 33 ∨ c = 63 ∨ c = 39 ∨ c = 45)

/-- `replace(/\s+/g, ' ')`: every maximal run of white space becomes one
space (code point 32). -/
def collapseWs : Str → Str
  | [] => []
  | [c] => [if jsSpace c then 32 else c]
  | c :: d :: rest =>
    if jsSpace c && jsSpace d then collapseWs (d :: rest)
    else (if jsSpace c then 32 else c) :: collapseWs (d :: rest)

/-- Left half of `String.prototype.trim`. -/
def trimLeft (l : Str) : Str := l.dropWhile jsSpace

/-- Right half of `String.prototype.trim`. -/
def trimRight : Str → Str
  | [] => []
  | c :: rest =>
    match trimRight rest with
    | [] => if jsSpace c then [] else [c]
    | r => c :: r

/-- `String.prototype.trim`. -/
def trimWs (l : Str) : Str := trimRight (trimLeft l)

/-- `preprocessText` from `src/config/database.js`:
lowercase, then `replace(/\s+/g, ' ').trim()`, then strip `[^\w\s.,!?'-]`. -/
def preprocessText (text : Str) : Str :=
  ((trimWs (collapseWs (text.map jsLower)))).filter allowedChar

example : preprocessText (codes "My email is john@example.com") =
    codes "my email is johnexample.com" := by decide

example : preprocessText (codes "@ hi") = codes " hi" := by decide

example : preprocessText (codes " hi") = codes "hi" := by decide

/-!
## Regular-expression engine

A backtracking matcher for the constructs appearing in the `entityTypes`
table: character classes, concatenation, alternation (left branch
preferred), greedy optional groups, greedy bounded class repetition, and
the word boundary `\b`.  `RE.consume` returns every way the expression can
consume a segment of the input, in JavaScript backtracking priority order;
the engine takes the head.  The previously consumed character is threaded
through so `\b` can inspect both sides of a position.
-/

/-- Syntax of the regular expressions used by the entity type table. -/
inductive RE where
  | eps : RE
  | cls : (Nat → Bool) → RE
  | seq : RE → RE → RE
  | alt : RE → RE → RE
  | opt : RE → RE
  | clsRep : (Nat → Bool) → Nat → Option Nat → RE
  | wordB : RE

/-- Whether an optional character is a word character (`none` behaves as a
non-word character, as at the ends of the input). -/
def isWordOpt : Option Nat → Bool
  | none => false
  | some c => isWordChar c

/-- The character preceding the current position after consuming `consumed`. -/
def newPrev (prev : Option Nat) (consumed : Str) : Option Nat :=
  match consumed.getLast? with
  | some c => some c
  | none => prev

/-- Greedy repetition counts `maxN, maxN-1, ..., lo` (empty if `maxN < lo`). -/
def repCounts (lo maxN : Nat) : List Nat :=
  (List.range (maxN + 1 - lo)).map (fun i => maxN - i)

/-- All ways `re` can match a segment starting at the current position, in
JavaScript backtracking priority order.  Each result is the consumed
segment, the new preceding character, and the remaining input. -/
def RE.consume : RE → Option Nat → Str → List (Str × Option Nat × Str)
  | .eps, prev, rest => [([], prev, rest)]
  | .wordB, prev, rest =>
    if isWordOpt prev != isWordOpt rest.head? then [([], prev, rest)] else []
  | .cls p, _prev, rest =>
    match rest with
    | [] => []
    | c :: cs => if p c then [([c], some c, cs)] else []
  | .clsRep p lo hi, prev, rest =>
    (repCounts lo (match hi with
        | none => (rest.takeWhile p).length
        | some h => min h (rest.takeWhile p).length)).map
      (fun i => (rest.take i, newPrev prev (rest.take i), rest.drop i))
  | .opt r, prev, rest => r.consume prev rest ++ [([], prev, rest)]
  | .alt a b, prev, rest => a.consume prev rest ++ b.consume prev rest
  | .seq a b, prev, rest =>
    (a.consume prev rest).flatMap
      (fun t => (b.consume t.2.1 t.2.2).map (fun u => (t.1 ++ u.1, u.2.1, u.2.2)))

/-- One step list of global matching: at each position try the expression;
on success record the (nonempty) match and continue after it, otherwise
advance one character.  `fuel` bounds the recursion; `text.length + 1` is
always enough since every step shortens the remaining input.  (A zero-width
full match cannot arise for the entity patterns, all of which contain a
mandatory character class; for safety such a match advances one character.) -/
def scanAux : Nat → RE → Option Nat → Str → List Str
  | 0, _, _, _ => []
  | fuel + 1, re, prev, rest =>
    match re.consume prev rest with
    | (m, p', r') :: _ =>
      if m.isEmpty then
        match rest with
        | [] => []
        | c :: cs => scanAux fuel re (some c) cs
      else m :: scanAux fuel re p' r'
    | [] =>
      match rest with
      | [] => []
      | c :: cs => scanAux fuel re (some c) cs

/-- `text.match(re)` with the global flag: the list of matched substrings. -/
def scanMatches (re : RE) (text : Str) : List Str :=
  scanAux (text.length + 1) re none text

/-- Is `needle` a prefix of `hay`? -/
def listPrefixAt : Str → Str → Bool
  | [], _ => true
  | _ :: _, [] => false
  | a :: as, b :: bs => a == b && listPrefixAt as bs

/-- First index at which `needle` occurs in `hay`, if any. -/
def jsIndexOfN (hay needle : Str) : Option Nat :=
  match hay with
  | [] => if listPrefixAt needle [] then some 0 else none
  | c :: tl =>
    if listPrefixAt needle (c :: tl) then some 0
    else (jsIndexOfN tl needle).map (fun n => n + 1)

/-- `String.prototype.indexOf`: the first occurrence index, `-1` if absent. -/
def jsIndexOf (hay needle : Str) : Int :=
  match jsIndexOfN hay needle with
  | none => -1
  | some n => n

/-!
## The entity type table and `extractentities`

The six entry regexes of `entityTypes` in `src/config/database.js`, in
declaration order, compiled to `RE` values.  Character classes are written
over code points; the `time` pattern carries the `i` flag, so its letter
classes are closed under case.
-/

/-- A single literal character (by code point). -/
def chr (n : Nat) : RE := RE.cls (fun c => c == n)

/-- Concatenation of a list of expressions. -/
def seqList (l : List RE) : RE := l.foldr RE.seq RE.eps

/-- Class `[A-Z]`. -/
def clUpper (c : Nat) : Bool := decide (65 ≤ c ∧ c ≤ 90)

/-- Class `[a-z]`. -/
def clLower (c : Nat) : Bool := decide (97 ≤ c ∧ c ≤ 122)

/-- Class `\d`. -/
def clDigit (c : Nat) : Bool := decide (48 ≤ c ∧ c ≤ 57)

/-- Class `[A-Za-z0-9._%+-]` (email local part). -/
def clEmailLocal (c : Nat) : Bool :=
  decide ((65 ≤ c ∧ c ≤ 90) ∨ (97 ≤ c ∧ c ≤ 122) ∨ (48 ≤ c ∧ c ≤ 57) ∨
    c = 46 ∨ c = 95 ∨ c = 37 ∨ c = 43 ∨ c = 45)

/-- Class `[A-Za-z0-9.-]` (email domain). -/
def clEmailDomain (c : Nat) : Bool :=
  decide ((65 ≤ c ∧ c ≤ 90) ∨ (97 ≤ c ∧ c ≤ 122) ∨ (48 ≤ c ∧ c ≤ 57) ∨
    c = 46 ∨ c = 45)

/-- Class `[A-Z|a-z]` (top-level domain; the `|` inside the class is a
literal pipe, code point 124). -/
def clTld (c : Nat) : Bool :=
  decide ((65 ≤ c ∧ c ≤ 90) ∨ (97 ≤ c ∧ c ≤ 122) ∨ c = 124)

/-- Class `[AP]` under the `i` flag. -/
def clAP (c : Nat) : Bool := decide (c = 65 ∨ c = 97 ∨ c = 80 ∨ c = 112)

/-- Literal `M` under the `i` flag. -/
def clM (c : Nat) : Bool := decide (c = 77 ∨ c = 109)

/-- `/\b[A-Z][a-z]+\s+[A-Z][a-z]+\b/g`. -/
def personRE : RE :=
  seqList [RE.wordB, RE.cls clUpper, RE.clsRep clLower 1 none,
    RE.clsRep jsSpace 1 none, RE.cls clUpper, RE.clsRep clLower 1 none, RE.wordB]

/-- `/\b\d{1,2}\/\d{1,2}\/\d{4}\b|\b\d{4}-\d{2}-\d{2}\b/g`. -/
def dateRE : RE :=
  RE.alt
    (seqList [RE.wordB, RE.clsRep clDigit 1 (some 2), chr 47,
      RE.clsRep clDigit 1 (some 2), chr 47, RE.clsRep clDigit 4 (some 4), RE.wordB])
    (seqList [RE.wordB, RE.clsRep clDigit 4 (some 4), chr 45,
      RE.clsRep clDigit 2 (some 2), chr 45, RE.clsRep clDigit 2 (some 2), RE.wordB])

/-- `/\b\d{1,2}:\d{2}(?:\s?[AP]M)?\b/gi`. -/
def timeRE : RE :=
  seqList [RE.wordB, RE.clsRep clDigit 1 (some 2), chr 58,
    RE.clsRep clDigit 2 (some 2),
    RE.opt (seqList [RE.clsRep jsSpace 0 (some 1), RE.cls clAP, RE.cls clM]),
    RE.wordB]

/-- `/\b[A-Za-z0-9._%+-]+@[A-Za-z0-9.-]+\.[A-Z|a-z]{2,}\b/g`. -/
def emailRE : RE :=
  seqList [RE.wordB, RE.clsRep clEmailLocal 1 none, chr 64,
    RE.clsRep clEmailDomain 1 none, chr 46, RE.clsRep clTld 2 none, RE.wordB]

/-- `/\b\d{3}-\d{3}-\d{4}\b|\b\(\d{3}\)\s?\d{3}-\d{4}\b/g`. -/
def phoneRE : RE :=
  RE.alt
    (seqList [RE.wordB, RE.clsRep clDigit 3 (some 3), chr 45,
      RE.clsRep clDigit 3 (some 3), chr 45, RE.clsRep clDigit 4 (some 4), RE.wordB])
    (seqList [RE.wordB, chr 40, RE.clsRep clDigit 3 (some 3), chr 41,
      RE.clsRep jsSpace 0 (some 1), RE.clsRep clDigit 3 (some 3), chr 45,
      RE.clsRep clDigit 4 (some 4), RE.wordB])

/-- `/\b\d+(?:\.\d+)?\b/g`. -/
def numberRE : RE :=
  seqList [RE.wordB, RE.clsRep clDigit 1 none,
    RE.opt (RE.seq (chr 46) (RE.clsRep clDigit 1 none)), RE.wordB]

/-- The `entityTypes` table of `src/config/database.js` in declaration
order (`Object.entries` order is insertion order). -/
def entityTypesList : List (String × RE) :=
  [("person", personRE), ("date", dateRE), ("time", timeRE),
   ("email", emailRE), ("phone", phoneRE), ("number", numberRE)]

/-- An extracted entity, as pushed by `extractentities`.  The source field
`end` is spelled `endPos` (`end` is reserved in Lean).  Offsets are `Int`
because `indexOf` can return `-1`. -/
structure Entity where
  type : String
  value : Str
  start : Int
  endPos : Int
deriving DecidableEq

/-- `extractentities` from `src/config/database.js`: for each entity type in
declaration order, one entity per global-regex match, with
`start = text.indexOf(match)` and `end = start + match.length`. -/
def extractentities (text : Str) : List Entity :=
  entityTypesList.foldl
    (fun acc p =>
      acc ++ (scanMatches p.2 text).map
        (fun m =>
          { type := p.1, value := m, start := jsIndexOf text m,
            endPos := jsIndexOf text m + m.length }))
    []

example : extractentities (codes "1 1") =
    [{ type := "number", value := codes "1", start := 0, endPos := 1 },
     { type := "number", value := codes "1", start := 0, endPos := 1 }] := by
  decide

example : extractentities (codes "My email is john@example.com") =
    [{ type := "email", value := codes "john@example.com", start := 12,
       endPos := 28 }] := by
  decide

example : extractentities (preprocessText (codes "My email is john@example.com")) = [] := by
  decide

/-!
## Sentiment analysis

`analyzeSentiment` in `src/config/database.js` delegates scoring to the
`sentiment` npm package and only adds the label ternary.  The scoring step
is therefore modelled from the spec; the label classification is embedded
from the source.
-/

/-- Modelled from the spec: the `sentiment` package (not part of this
repository) tokenizes the text and sums per-token lexicon polarity into
`score`.  The lexicon is a parameter; tokens are code-point lists. -/
def sentimentScore (lex : Str → Int) (tokens : List Str) : Int :=
  (tokens.map lex).sum

/-- Modelled from the spec: `comparative = score / tokenCount` (0 if no
tokens), as computed by the `sentiment` package. -/
def sentimentComparative (lex : Str → Int) (tokens : List Str) : ℚ :=
  if tokens.length = 0 then 0
  else (sentimentScore lex tokens : ℚ) / (tokens.length : ℚ)

/-- The label ternary of `analyzeSentiment` in `src/config/database.js`:
`score > threshold ? 'positive' : score < -threshold ? 'negative' : 'neutral'`. -/
def sentimentLabel (thr : ℚ) (score : Int) : String :=
  if thr < (score : ℚ) then "positive"
  else if (score : ℚ) < -thr then "negative"
  else "neutral"

/-- Result record of `analyzeSentiment` (the fields the claims concern). -/
structure SentimentResult where
  score : Int
  comparative : ℚ
  label : String
deriving DecidableEq

/-- `analyzeSentiment` from `src/config/database.js`, over the modelled
scorer: copies the package score and comparative and classifies the label
against the configured threshold `NLP_SENTIMENT_THRESHOLD`. -/
def analyzeSentiment (lex : Str → Int) (thr : ℚ) (tokens : List Str) :
    SentimentResult :=
  { score := sentimentScore lex tokens,
    comparative := sentimentComparative lex tokens,
    label := sentimentLabel thr (sentimentScore lex tokens) }

/-!
## Redis retry strategy

From the Redis configuration module (`src/unnamed/part_001`):
`const delay = Math.min(times * 100, 2000)`.
-/

/-- `retryStrategy` from the Redis configuration module. -/
def retryStrategy (times : Nat) : Nat := min (times * 100) 2000

/-!
## NLP manager initialization

`InitializeNlpManager` in `src/config/database.js` resolves four paths with
`path.resolve`, loads the training corpus inside an inner `try` whose
`catch` falls back to the built-in `intentCategories`, trains, and returns
the manager; its outer `catch` rethrows.  The module never requires the
`path` module, so every `path.resolve` call raises a `ReferenceError`
inside the outer `try`.
-/

/-- A built-in intent category of `intentCategories`. -/
structure IntentCategory where
  name : String
  patterns : List String
  entities : List String
  responses : List String
deriving DecidableEq

/-- The `intentCategories` table of `src/config/database.js`, in declaration
order. -/
def intentCategories : List IntentCategory :=
  [{ name := "greeting",
     patterns := ["hello", "hi", "hey", "good morning", "good afternoon",
       "good evening", "greetings", "howdy", "what\x27s up", "how are you"],
     entities := [],
     responses := ["Hello! How can I help you today?",
       "Hi there! What can I do for you?",
       "Greetings! How may I assist you?",
       "Hello! I\x27m here to help. What do you need?"] },
   { name := "goodbye",
     patterns := ["bye", "goodbye", "see you", "farewell", "take care",
       "have a good day", "catch you later", "until next time", "so long",
       "adios"],
     entities := [],
     responses := ["Goodbye! Have a great day!",
       "See you later! Take care!",
       "Farewell! Feel free to come back anytime.",
       "Bye! It was nice talking with you."] },
   { name := "help",
     patterns := ["help", "can you help", "I need help", "assist me",
       "support", "what can you do", "how does this work", "instructions"],
     entities := [],
     responses := ["I\x27m here to help! You can ask me any question and I\x27ll do my best to assist you.",
       "I can help you with various tasks. What specific help do you need?",
       "Sure! I\x27m designed to assist you. What would you like help with?"] },
   { name := "question",
     patterns := ["what is", "who is", "where is", "when is", "why is",
       "how is", "what are", "who are", "where are", "when are", "why are",
       "how are", "tell me about", "explain", "describe"],
     entities := ["topic", "subject"],
     responses := ["Let me help you with that question.",
       "I\x27ll do my best to answer your question.",
       "That\x27s a great question. Let me think about it."] },
   { name := "compliment",
     patterns := ["thank you", "thanks", "great job", "well done", "awesome",
       "you\x27re helpful", "good work", "excellent", "amazing"],
     entities := [],
     responses := ["You\x27re welcome! I\x27m glad I could be of help.",
       "Thank you! I appreciate your kind words.",
       "I\x27m happy to be of assistance!"] },
   { name := "complaint",
     patterns := ["this is wrong", "you\x27re not helpful",
       "this doesn\x27t work", "I\x27m frustrated", "this is bad", "terrible",
       "awful"],
     entities := [],
     responses := ["I apologize for any inconvenience. Let me try to help you better.",
       "I\x27m sorry this isn\x27t working as expected. How can I improve?",
       "I understand your frustration. Let me see what I can do to help."] }]

/-- An intent definition from `intents.json`. -/
structure IntentDef where
  name : String
  responses : List String
deriving DecidableEq

/-- A named entity definition from `entities.json`, as passed to
`manager.addNamedEntityText`. -/
structure NamedEntity where
  name : String
  option : String
  languages : List String
  texts : List String
deriving DecidableEq

/-- The training corpus loaded from the three JSON files. -/
structure Corpus where
  intents : List IntentDef
  utterances : List (String × List String)
  entities : List NamedEntity
deriving DecidableEq

/-- The state accumulated on the NLP manager by initialization. -/
structure TrainedManager where
  documents : List (String × String)
  answers : List (String × String)
  namedEntities : List NamedEntity
  trained : Bool
deriving DecidableEq

/-- A thrown JavaScript error. -/
inductive JsError where
  | referenceError : String → JsError
deriving DecidableEq

/-- `utterances[intent.name] || []`. -/
def lookupUtterances (u : List (String × List String)) (name : String) :
    List String :=
  match u.find? (fun p => p.1 == name) with
  | some p => p.2
  | none => []

/-- Documents added from the loaded corpus: for each intent, one document
per utterance. -/
def corpusDocuments (c : Corpus) : List (String × String) :=
  c.intents.flatMap
    (fun i => (lookupUtterances c.utterances i.name).map (fun ut => (ut, i.name)))

/-- Answers added from the loaded corpus: for each intent, one answer per
declared response. -/
def corpusAnswers (c : Corpus) : List (String × String) :=
  c.intents.flatMap (fun i => i.responses.map (fun r => (i.name, r)))

/-- Documents added on the default path: every pattern of every built-in
intent category. -/
def defaultDocuments : List (String × String) :=
  intentCategories.flatMap (fun ic => ic.patterns.map (fun p => (p, ic.name)))

/-- Answers added on the default path: every response of every built-in
intent category. -/
def defaultAnswers : List (String × String) :=
  intentCategories.flatMap (fun ic => ic.responses.map (fun r => (ic.name, r)))

/-- `path.resolve` as reachable from `InitializeNlpManager`: the module
`src/config/database.js` never requires `path`, so every call raises
`ReferenceError: path is not defined`. -/
def pathResolve (_p : String) : Except JsError String :=
  Except.error (JsError.referenceError "path")

/-- `InitializeNlpManager` from `src/config/database.js`.  The corpus load
result is a parameter (`Except.error` models the inner `catch` path taken
when the training files are missing or invalid); errors of the outer `try`
are rethrown, modelled by the `Except` monad. -/
def InitializeNlpManager (corpusLoad : Except String Corpus) :
    Except JsError TrainedManager := do
  let _intentsPath ← pathResolve "../training/intents.json"
  let _utterancesPath ← pathResolve "../training/utterances.json"
  let _entitiesPath ← pathResolve "../training/entities.json"
  let _modelPath ← pathResolve "env.NLP_MODEL_PATH"
  match corpusLoad with
  | Except.ok c =>
    Except.ok { documents := corpusDocuments c, answers := corpusAnswers c,
                namedEntities := c.entities, trained := true }
  | Except.error _ =>
    Except.ok { documents := defaultDocuments, answers := defaultAnswers,
                namedEntities := [], trained := true }

/-!
## Claims C6, C7, C8, C10
-/

/-- C6: for every text (equivalently, every token list and lexicon) and the
configured sentiment threshold (nonnegative, as the configured value 0.5
is), the sentiment label is "positive" exactly when the score exceeds the
threshold, "negative" exactly when the score is below the negated
threshold, and "neutral" otherwise. -/
theorem claim_C6_sentiment_label (lex : Str → Int) (thr : ℚ) (tokens : List Str)
    (hthr : 0 ≤ thr) :
    ((analyzeSentiment lex thr tokens).label = "positive" ↔
      thr < ((sentimentScore lex tokens : Int) : ℚ)) ∧
    ((analyzeSentiment lex thr tokens).label = "negative" ↔
      ((sentimentScore lex tokens : Int) : ℚ) < -thr) ∧
    ((analyzeSentiment lex thr tokens).label = "neutral" ↔
      (-thr ≤ ((sentimentScore lex tokens : Int) : ℚ) ∧
        ((sentimentScore lex tokens : Int) : ℚ) ≤ thr)) := by
  have h : (analyzeSentiment lex thr tokens).label =
      sentimentLabel thr (sentimentScore lex tokens) := rfl
  rw [h]
  unfold sentimentLabel
  split_ifs with h1 h2
  · refine ⟨⟨fun _ => h1, fun _ => rfl⟩,
      ⟨fun hh => absurd hh (by decide), fun hh => (by linarith : False).elim⟩,
      ⟨fun hh => absurd hh (by decide), fun hh => (by linarith : False).elim⟩⟩
  · refine ⟨⟨fun hh => absurd hh (by decide), fun hh => absurd hh h1⟩,
      ⟨fun _ => h2, fun _ => rfl⟩,
      ⟨fun hh => absurd hh (by decide), fun hh => (by linarith : False).elim⟩⟩
  · refine ⟨⟨fun hh => absurd hh (by decide), fun hh => absurd hh h1⟩,
      ⟨fun hh => absurd hh (by decide), fun hh => absurd hh h2⟩,
      ⟨fun _ => ⟨not_lt.mp h2, not_lt.mp h1⟩, fun _ => rfl⟩⟩

/-- Witness for C6 at a concrete instance: threshold 1, constant lexicon
polarity 2, one token. -/
theorem claim_C6_sentiment_label_witness :
    (0 : ℚ) ≤ 1 ∧
    (((analyzeSentiment (fun _ => (2 : Int)) 1 [[104]]).label = "positive" ↔
      (1 : ℚ) < ((sentimentScore (fun _ => (2 : Int)) [[104]] : Int) : ℚ)) ∧
     ((analyzeSentiment (fun _ => (2 : Int)) 1 [[104]]).label = "negative" ↔
      ((sentimentScore (fun _ => (2 : Int)) [[104]] : Int) : ℚ) < -1) ∧
     ((analyzeSentiment (fun _ => (2 : Int)) 1 [[104]]).label = "neutral" ↔
      (-1 ≤ ((sentimentScore (fun _ => (2 : Int)) [[104]] : Int) : ℚ) ∧
       ((sentimentScore (fun _ => (2 : Int)) [[104]] : Int) : ℚ) ≤ 1))) :=
  ⟨zero_le_one,
   claim_C6_sentiment_label (fun _ => (2 : Int)) 1 [[104]] zero_le_one⟩

/-- C7: the sentiment score is monotonic in lexicon polarity: appending a
token of strictly positive polarity never decreases the score, and
appending a token of strictly negative polarity never increases it. -/
theorem claim_C7_sentiment_monotone (lex : Str → Int) (thr : ℚ)
    (tokens : List Str) (t : Str) :
    (0 < lex t →
      (analyzeSentiment lex thr tokens).score ≤
        (analyzeSentiment lex thr (tokens ++ [t])).score) ∧
    (lex t < 0 →
      (analyzeSentiment lex thr (tokens ++ [t])).score ≤
        (analyzeSentiment lex thr tokens).score) := by
  have hs : (analyzeSentiment lex thr (tokens ++ [t])).score =
      (analyzeSentiment lex thr tokens).score + lex t := by
    simp [analyzeSentiment, sentimentScore]
  constructor <;> intro h <;> rw [hs] <;> omega

/-- Witness for C7: a polarity `+1` token appended to the empty token list,
and a polarity `-1` token likewise. -/
theorem claim_C7_sentiment_monotone_witness :
    ((0 : Int) < 1 ∧
      (analyzeSentiment (fun _ => (1 : Int)) 0 []).score ≤
        (analyzeSentiment (fun _ => (1 : Int)) 0 ([] ++ [[104]])).score) ∧
    ((-1 : Int) < 0 ∧
      (analyzeSentiment (fun _ => (-1 : Int)) 0 ([] ++ [[104]])).score ≤
        (analyzeSentiment (fun _ => (-1 : Int)) 0 []).score) :=
  ⟨⟨by decide, (claim_C7_sentiment_monotone (fun _ => (1 : Int)) 0 [] [104]).1 (by decide)⟩,
   ⟨by decide, (claim_C7_sentiment_monotone (fun _ => (-1 : Int)) 0 [] [104]).2 (by decide)⟩⟩

/-- C8: contrary to the claim, initialization does fail: `path` is never
required in the module, so every run of `InitializeNlpManager` raises a
`ReferenceError` inside the outer `try`, which rethrows — including on the
corpus-load-failure path the claim is about.  Moreover the built-in default
intent set consists of exactly six intents and contains no `fallback`
intent. -/
theorem claim_C8_init_throws_reference_error :
    (∀ corpusLoad, InitializeNlpManager corpusLoad =
      Except.error (JsError.referenceError "path")) ∧
    intentCategories.map IntentCategory.name =
      ["greeting", "goodbye", "help", "question", "compliment", "complaint"] ∧
    "fallback" ∉ intentCategories.map IntentCategory.name :=
  ⟨fun _ => rfl, rfl, by decide⟩

/-- C10: the Redis retry strategy returns `min(times * 100, 2000)`, hence a
delay never exceeding 2000 ms. -/
theorem claim_C10_retry_delay (times : Nat) :
    retryStrategy times = min (times * 100) 2000 ∧ retryStrategy times ≤ 2000 :=
  ⟨rfl, Nat.min_le_right _ _⟩

/-!
## Normalizer lemmas

The strip step of `preprocessText` runs after whitespace collapsing and
trimming, so deleting a disallowed character can expose edge spaces or
merge space runs; a second pass reaches a genuine fixed point.  The lemmas
below establish the fixed-point argument.
-/

/-- No two adjacent characters are both white space. -/
def noAdjSpaces : Str → Bool
  | [] => true
  | [_] => true
  | c :: d :: rest => !(jsSpace c && jsSpace d) && noAdjSpaces (d :: rest)

theorem noAdjSpaces_tail (c : Nat) (l : Str) (h : noAdjSpaces (c :: l) = true) :
    noAdjSpaces l = true := by
  cases l with
  | nil => rfl
  | cons d rest =>
    rw [show noAdjSpaces (c :: d :: rest) =
        (!(jsSpace c && jsSpace d) && noAdjSpaces (d :: rest)) from rfl] at h
    simp only [Bool.and_eq_true] at h
    exact h.2

theorem mem_collapseWs : ∀ (l : Str) (c : Nat), c ∈ collapseWs l →
    c = 32 ∨ (c ∈ l ∧ jsSpace c = false) := by
  intro l
  induction l with
  | nil => intro c h; simp [collapseWs] at h
  | cons d rest ih =>
    intro c h
    cases rest with
    | nil =>
      simp only [collapseWs, List.mem_singleton] at h
      cases hd : jsSpace d
      · right; rw [hd] at h; simp at h; subst h; exact ⟨by simp, hd⟩
      · left; rw [hd] at h; simpa using h
    | cons e rest' =>
      cases hde : (jsSpace d && jsSpace e)
      · have hcl : collapseWs (d :: e :: rest') =
            (if jsSpace d then 32 else d) :: collapseWs (e :: rest') := by
          simp [collapseWs, hde]
        rw [hcl] at h
        rcases List.mem_cons.mp h with h1 | h2
        · cases hd : jsSpace d
          · right; rw [hd] at h1; simp at h1; subst h1; exact ⟨by simp, hd⟩
          · left; rw [hd] at h1; simpa using h1
        · rcases ih c h2 with h32 | ⟨hm, hs⟩
          · exact Or.inl h32
          · exact Or.inr ⟨List.mem_cons_of_mem d hm, hs⟩
      · have hcl : collapseWs (d :: e :: rest') = collapseWs (e :: rest') := by
          simp [collapseWs, hde]
        rw [hcl] at h
        rcases ih c h with h32 | ⟨hm, hs⟩
        · exact Or.inl h32
        · exact Or.inr ⟨List.mem_cons_of_mem d hm, hs⟩

theorem collapseWs_ne_nil : ∀ (d : Nat) (rest : Str), collapseWs (d :: rest) ≠ [] := by
  intro d rest
  induction rest generalizing d with
  | nil => cases hd : jsSpace d <;> simp [collapseWs, hd]
  | cons e rest' ih =>
    cases hde : (jsSpace d && jsSpace e)
    · simp [collapseWs, hde]
    · simp only [collapseWs, hde]; simpa using ih e

theorem collapseWs_cons_nonspace (d : Nat) (rest : Str) (hd : jsSpace d = false) :
    ∃ tl, collapseWs (d :: rest) = d :: tl := by
  cases rest with
  | nil => exact ⟨[], by simp [collapseWs, hd]⟩
  | cons e rest' => exact ⟨collapseWs (e :: rest'), by simp [collapseWs, hd]⟩

theorem noAdjSpaces_collapseWs : ∀ l : Str, noAdjSpaces (collapseWs l) = true := by
  intro l
  induction l with
  | nil => rfl
  | cons d rest ih =>
    cases rest with
    | nil => cases hd : jsSpace d <;> simp [collapseWs, hd, noAdjSpaces]
    | cons e rest' =>
      cases hde : (jsSpace d && jsSpace e)
      · have hcl : collapseWs (d :: e :: rest') =
            (if jsSpace d then 32 else d) :: collapseWs (e :: rest') := by
          simp [collapseWs, hde]
        rw [hcl]
        obtain ⟨y, tl, hy⟩ : ∃ y tl, collapseWs (e :: rest') = y :: tl := by
          cases hc2 : collapseWs (e :: rest') with
          | nil => exact absurd hc2 (collapseWs_ne_nil e rest')
          | cons y tl => exact ⟨y, tl, rfl⟩
        rw [hy]
        have hyadj : noAdjSpaces (y :: tl) = true := by rw [← hy]; exact ih
        rw [show noAdjSpaces ((if jsSpace d then 32 else d) :: y :: tl) =
            (!(jsSpace (if jsSpace d then 32 else d) && jsSpace y) &&
              noAdjSpaces (y :: tl)) from rfl]
        rw [hyadj, Bool.and_true]
        cases hd : jsSpace d
        · simp [hd]
        · have he : jsSpace e = false := by
            cases he' : jsSpace e
            · rfl
            · rw [hd, he'] at hde; simp at hde
          obtain ⟨tl₂, hy₂⟩ := collapseWs_cons_nonspace e rest' he
          rw [hy₂] at hy
          have hye : y = e := by injection hy with h1 _; exact h1.symm
          simp [hd, hye, he]
      · have hcl : collapseWs (d :: e :: rest') = collapseWs (e :: rest') := by
          simp [collapseWs, hde]
        rw [hcl]; exact ih

theorem collapseWs_eq_self : ∀ v : Str, (∀ c ∈ v, jsSpace c = true → c = 32) →
    noAdjSpaces v = true → collapseWs v = v := by
  intro v
  induction v with
  | nil => intro _ _; rfl
  | cons d rest ih =>
    intro hblank hadj
    cases rest with
    | nil =>
      cases hd : jsSpace d
      · simp [collapseWs, hd]
      · have h32 : d = 32 := hblank d (by simp) hd
        simp [collapseWs, hd, h32]
    | cons e rest' =>
      have hadj' : noAdjSpaces (e :: rest') = true := noAdjSpaces_tail d _ hadj
      have hpair : (jsSpace d && jsSpace e) = false := by
        rw [show noAdjSpaces (d :: e :: rest') =
            (!(jsSpace d && jsSpace e) && noAdjSpaces (e :: rest')) from rfl] at hadj
        simp only [Bool.and_eq_true] at hadj
        have h1 := hadj.1
        cases h : (jsSpace d && jsSpace e)
        · rfl
        · rw [h] at h1; simp at h1
      have hcl : collapseWs (d :: e :: rest') =
          (if jsSpace d then 32 else d) :: collapseWs (e :: rest') := by
        simp [collapseWs, hpair]
      rw [hcl, ih (fun c hc hsc => hblank c (by simp [hc]) hsc) hadj']
      congr 1
      cases hd : jsSpace d
      · simp [hd]
      · simp [hd, hblank d (by simp) hd]

theorem noAdjSpaces_trimLeft : ∀ l : Str, noAdjSpaces l = true →
    noAdjSpaces (trimLeft l) = true := by
  intro l
  induction l with
  | nil => intro _; rfl
  | cons c rest ih =>
    intro h
    cases hc : jsSpace c
    · rw [show trimLeft (c :: rest) = c :: rest from by simp [trimLeft, hc]]
      exact h
    · rw [show trimLeft (c :: rest) = trimLeft rest from by simp [trimLeft, hc]]
      exact ih (noAdjSpaces_tail c rest h)

theorem mem_trimLeft (l : Str) (c : Nat) (h : c ∈ trimLeft l) : c ∈ l :=
  (List.dropWhile_sublist jsSpace).subset h

theorem trimLeft_head : ∀ (l : Str) (c : Nat) (cs : Str),
    trimLeft l = c :: cs → jsSpace c = false := by
  intro l
  induction l with
  | nil => intro c cs h; simp [trimLeft] at h
  | cons d rest ih =>
    intro c cs h
    cases hd : jsSpace d
    · rw [show trimLeft (d :: rest) = d :: rest from by simp [trimLeft, hd]] at h
      injection h with h1 _
      rw [← h1]; exact hd
    · rw [show trimLeft (d :: rest) = trimLeft rest from by simp [trimLeft, hd]] at h
      exact ih c cs h

theorem trimLeft_eq_self_of_head : ∀ l : Str,
    (l.head?.all fun c => !jsSpace c) = true → trimLeft l = l := by
  intro l h
  cases l with
  | nil => rfl
  | cons c rest =>
    have hc : jsSpace c = false := by simpa using h
    simp [trimLeft, hc]

theorem trimRight_cons (a : Nat) (l : Str) :
    trimRight (a :: l) =
      match trimRight l with
      | [] => if jsSpace a then [] else [a]
      | r => a :: r := rfl

theorem mem_trimRight : ∀ (l : Str) (c : Nat), c ∈ trimRight l → c ∈ l := by
  intro l
  induction l with
  | nil => intro c h; simp [trimRight] at h
  | cons d rest ih =>
    intro c h
    cases htr : trimRight rest with
    | nil =>
      rw [show trimRight (d :: rest) = if jsSpace d then [] else [d] from by
        simp only [trimRight, htr]] at h
      cases hd : jsSpace d
      · rw [hd] at h; simp at h; simp [h]
      · rw [hd] at h; simp at h
    | cons y ys =>
      rw [show trimRight (d :: rest) = d :: y :: ys from by
        simp only [trimRight, htr]] at h
      rcases List.mem_cons.mp h with h1 | h2
      · simp [h1]
      · exact List.mem_cons_of_mem d (ih c (htr ▸ h2))

theorem trimRight_head : ∀ (l : Str) (c : Nat) (cs : Str),
    trimRight l = c :: cs → ∃ ds, l = c :: ds := by
  intro l
  induction l with
  | nil => intro c cs h; simp [trimRight] at h
  | cons d rest _ =>
    intro c cs h
    cases htr : trimRight rest with
    | nil =>
      rw [show trimRight (d :: rest) = if jsSpace d then [] else [d] from by
        simp only [trimRight, htr]] at h
      cases hd : jsSpace d
      · rw [hd] at h; simp at h
        exact ⟨rest, by rw [h.1]⟩
      · rw [hd] at h; simp at h
    | cons y ys =>
      rw [show trimRight (d :: rest) = d :: y :: ys from by
        simp only [trimRight, htr]] at h
      injection h with h1 _
      exact ⟨rest, by rw [h1]⟩

theorem trimRight_getLast : ∀ (l : Str) (c : Nat),
    (trimRight l).getLast? = some c → jsSpace c = false := by
  intro l
  induction l with
  | nil => intro c h; simp [trimRight] at h
  | cons d rest ih =>
    intro c h
    cases htr : trimRight rest with
    | nil =>
      rw [show trimRight (d :: rest) = if jsSpace d then [] else [d] from by
        simp only [trimRight, htr]] at h
      cases hd : jsSpace d
      · rw [hd] at h; simp at h; rw [← h]; exact hd
      · rw [hd] at h; simp at h
    | cons y ys =>
      rw [show trimRight (d :: rest) = d :: y :: ys from by
        simp only [trimRight, htr]] at h
      rw [List.getLast?_cons_cons] at h
      exact ih c (htr ▸ h)

theorem trimRight_eq_self : ∀ l : Str,
    (l.getLast?.all fun c => !jsSpace c) = true → trimRight l = l := by
  intro l
  induction l with
  | nil => intro _; rfl
  | cons d rest ih =>
    intro h
    cases rest with
    | nil =>
      have hd : jsSpace d = false := by simpa using h
      simp [trimRight, hd]
    | cons e rest' =>
      have h' : ((e :: rest').getLast?.all fun c => !jsSpace c) = true := by
        rwa [List.getLast?_cons_cons] at h
      have htr : trimRight (e :: rest') = e :: rest' := ih h'
      rw [trimRight_cons, htr]

theorem noAdjSpaces_trimRight : ∀ l : Str, noAdjSpaces l = true →
    noAdjSpaces (trimRight l) = true := by
  intro l
  induction l with
  | nil => intro _; rfl
  | cons d rest ih =>
    intro h
    cases htr : trimRight rest with
    | nil =>
      rw [show trimRight (d :: rest) = if jsSpace d then [] else [d] from by
        simp only [trimRight, htr]]
      cases hd : jsSpace d <;> simp [noAdjSpaces]
    | cons y ys =>
      rw [show trimRight (d :: rest) = d :: y :: ys from by
        simp only [trimRight, htr]]
      have hadj : noAdjSpaces (y :: ys) = true := htr ▸ ih (noAdjSpaces_tail d rest h)
      obtain ⟨ds, hds⟩ := trimRight_head rest y ys htr
      have hpair : (!(jsSpace d && jsSpace y)) = true := by
        rw [hds] at h
        rw [show noAdjSpaces (d :: y :: ds) =
            (!(jsSpace d && jsSpace y) && noAdjSpaces (y :: ds)) from rfl] at h
        simp only [Bool.and_eq_true] at h
        exact h.1
      rw [show noAdjSpaces (d :: y :: ys) =
          (!(jsSpace d && jsSpace y) && noAdjSpaces (y :: ys)) from rfl]
      rw [hpair, hadj]; rfl

theorem map_jsLower_eq_self : ∀ l : Str, (∀ c ∈ l, jsLower c = c) →
    l.map jsLower = l := by
  intro l
  induction l with
  | nil => intro _; rfl
  | cons c rest ih =>
    intro h
    simp only [List.map_cons]
    rw [h c (by simp), ih (fun d hd => h d (by simp [hd]))]

theorem filter_allowed_eq_self : ∀ l : Str, (∀ c ∈ l, allowedChar c = true) →
    l.filter allowedChar = l := by
  intro l
  induction l with
  | nil => intro _; rfl
  | cons c rest ih =>
    intro h
    rw [List.filter_cons, if_pos (h c (by simp)), ih (fun d hd => h d (by simp [hd]))]

theorem jsLower_idem (c : Nat) : jsLower (jsLower c) = jsLower c := by
  unfold jsLower; split_ifs <;> omega

theorem mem_trimWs (l : Str) (c : Nat) (h : c ∈ trimWs l) : c ∈ l :=
  mem_trimLeft l c (mem_trimRight (trimLeft l) c h)

/-- Provenance of characters of `preprocessText x`: each is a space emitted
by the collapse step or a lowercased character of `x`, and in the latter
case it is not white space. -/
theorem mem_preprocess_chain (x : Str) (c : Nat) (h : c ∈ preprocessText x) :
    c = 32 ∨ (c ∈ x.map jsLower ∧ jsSpace c = false) := by
  have h1 : c ∈ trimWs (collapseWs (x.map jsLower)) := (List.mem_filter.mp h).1
  exact mem_collapseWs (x.map jsLower) c (mem_trimWs _ c h1)

theorem jsLower_fixed_of_mem_pre (x : Str) (c : Nat) (h : c ∈ preprocessText x) :
    jsLower c = c := by
  rcases mem_preprocess_chain x c h with h32 | ⟨hm, _⟩
  · rw [h32]; rfl
  · obtain ⟨a, _, ha⟩ := List.mem_map.mp hm
    rw [← ha]; exact jsLower_idem a

theorem allowed_of_mem_pre (x : Str) (c : Nat) (h : c ∈ preprocessText x) :
    allowedChar c = true :=
  (List.mem_filter.mp h).2

/-- Applying `preprocessText` a second time reduces to collapse-and-trim of
the first output: the lowercasing and the strip are the identity there. -/
theorem preprocess_preprocess (x : Str) :
    preprocessText (preprocessText x) =
      trimWs (collapseWs (preprocessText x)) := by
  have h1 : (preprocessText x).map jsLower = preprocessText x :=
    map_jsLower_eq_self _ (fun c hc => jsLower_fixed_of_mem_pre x c hc)
  have h2 : ∀ c ∈ trimWs (collapseWs (preprocessText x)), allowedChar c = true := by
    intro c hc
    rcases mem_collapseWs _ c (mem_trimWs _ c hc) with h32 | ⟨hcy, _⟩
    · rw [h32]; rfl
    · exact allowed_of_mem_pre x c hcy
  show (trimWs (collapseWs ((preprocessText x).map jsLower))).filter allowedChar =
    trimWs (collapseWs (preprocessText x))
  rw [h1, filter_allowed_eq_self _ h2]

/-- A string satisfying all fixed-point conditions is unchanged by
`preprocessText`. -/
theorem preprocess_eq_self_of (z : Str)
    (hlow : ∀ c ∈ z, jsLower c = c)
    (hall : ∀ c ∈ z, allowedChar c = true)
    (hblank : ∀ c ∈ z, jsSpace c = true → c = 32)
    (hadj : noAdjSpaces z = true)
    (hhead : (z.head?.all fun c => !jsSpace c) = true)
    (hlast : (z.getLast?.all fun c => !jsSpace c) = true) :
    preprocessText z = z := by
  show (trimWs (collapseWs (z.map jsLower))).filter allowedChar = z
  rw [map_jsLower_eq_self z hlow, collapseWs_eq_self z hblank hadj,
    show trimWs z = z from by
      unfold trimWs
      rw [trimLeft_eq_self_of_head z hhead, trimRight_eq_self z hlast],
    filter_allowed_eq_self z hall]

/-!
## Claims C2 and C3
-/

/-- C2 counterexample: the normalizer is not idempotent.  On `"@ hi"` the
strip step deletes `@` after trimming, exposing a leading space that only a
second pass removes. -/
theorem claim_C2_counterexample :
    preprocessText (preprocessText (codes "@ hi")) ≠
      preprocessText (codes "@ hi") := by decide

/-- C2 (amended): the normalizer composed with itself is idempotent — for
every input `x`, `preprocessText (preprocessText (preprocessText x)) =
preprocessText (preprocessText x)`; equivalently, one application is a
fixed point whenever the strip step has nothing left to delete. -/
theorem claim_C2_double_idempotent (x : Str) :
    preprocessText (preprocessText (preprocessText x)) =
      preprocessText (preprocessText x) := by
  have hyz := preprocess_preprocess x
  rw [hyz]
  have hmz : ∀ c ∈ trimWs (collapseWs (preprocessText x)),
      c = 32 ∨ (c ∈ preprocessText x ∧ jsSpace c = false) :=
    fun c hc => mem_collapseWs _ c (mem_trimWs _ c hc)
  apply preprocess_eq_self_of
  · intro c hc
    rcases hmz c hc with h32 | ⟨hcy, _⟩
    · rw [h32]; rfl
    · exact jsLower_fixed_of_mem_pre x c hcy
  · intro c hc
    rcases hmz c hc with h32 | ⟨hcy, _⟩
    · rw [h32]; rfl
    · exact allowed_of_mem_pre x c hcy
  · intro c hc hsc
    rcases hmz c hc with h32 | ⟨_, hns⟩
    · exact h32
    · rw [hsc] at hns; exact absurd hns (by simp)
  · exact noAdjSpaces_trimRight _
      (noAdjSpaces_trimLeft _ (noAdjSpaces_collapseWs (preprocessText x)))
  · cases hz : trimWs (collapseWs (preprocessText x)) with
    | nil => rfl
    | cons c cs =>
      obtain ⟨ds, hds⟩ := trimRight_head _ c cs hz
      have := trimLeft_head _ c ds hds
      simp [this]
  · cases hgl : (trimWs (collapseWs (preprocessText x))).getLast? with
    | none => rfl
    | some c =>
      have := trimRight_getLast (trimLeft (collapseWs (preprocessText x))) c hgl
      simp [this]

/-- C3: every character of the normalizer output belongs to the fixed
allow-list of the strip step: word characters, white space and the
punctuation `. , ! ? ' -`. -/
theorem claim_C3_allow_list (x : Str) (c : Nat) (h : c ∈ preprocessText x) :
    allowedChar c = true :=
  (List.mem_filter.mp h).2

/-- Witness for C3: the character `a` (code 97) of the output on input `"a"`. -/
theorem claim_C3_allow_list_witness :
    97 ∈ preprocessText (codes "a") ∧ allowedChar 97 = true :=
  ⟨by decide, claim_C3_allow_list (codes "a") 97 (by decide)⟩

/-!
## Extraction lemmas

Matches produced by the engine are segments of the input, so `indexOf`
finds them; the offsets recorded by `extractentities` are therefore the
span of the first occurrence of the matched value.
-/

theorem consume_spec : ∀ (re : RE) (prev : Option Nat) (rest : Str)
    (t : Str × Option Nat × Str), t ∈ re.consume prev rest →
    t.1 ++ t.2.2 = rest := by
  intro re
  induction re with
  | eps =>
    intro prev rest t h
    simp only [RE.consume, List.mem_singleton] at h
    subst h; rfl
  | wordB =>
    intro prev rest t h
    simp only [RE.consume] at h
    split at h
    · simp only [List.mem_singleton] at h; subst h; rfl
    · simp at h
  | cls p =>
    intro prev rest t h
    cases rest with
    | nil => simp [RE.consume] at h
    | cons c cs =>
      simp only [RE.consume] at h
      split at h
      · simp only [List.mem_singleton] at h; subst h; rfl
      · simp at h
  | clsRep p lo hi =>
    intro prev rest t h
    simp only [RE.consume] at h
    obtain ⟨i, _, ht⟩ := List.mem_map.mp h
    rw [← ht]
    exact List.take_append_drop i rest
  | opt r ihr =>
    intro prev rest t h
    simp only [RE.consume, List.mem_append] at h
    rcases h with h | h
    · exact ihr prev rest t h
    · simp only [List.mem_singleton] at h; subst h; rfl
  | alt a b iha ihb =>
    intro prev rest t h
    simp only [RE.consume, List.mem_append] at h
    rcases h with h | h
    · exact iha prev rest t h
    · exact ihb prev rest t h
  | seq a b iha ihb =>
    intro prev rest t h
    simp only [RE.consume] at h
    obtain ⟨u, hu, ht⟩ := List.mem_flatMap.mp h
    obtain ⟨v, hv, htv⟩ := List.mem_map.mp ht
    have h1 := iha prev rest u hu
    have h2 := ihb u.2.1 u.2.2 v hv
    rw [← htv]
    show (u.1 ++ v.1) ++ v.2.2 = rest
    rw [List.append_assoc, h2, h1]

theorem scanAux_succ_cons (f : Nat) (re : RE) (prev : Option Nat)
    (rest : Str) (a : Nat) (as : Str) (p' : Option Nat) (r' : Str)
    (tl : List (Str × Option Nat × Str))
    (h : re.consume prev rest = (a :: as, p', r') :: tl) :
    scanAux (f + 1) re prev rest = (a :: as) :: scanAux f re p' r' := by
  simp [scanAux, h, List.isEmpty]

theorem scanAux_succ_none_cons (f : Nat) (re : RE) (prev : Option Nat)
    (c : Nat) (cs : Str) (h : re.consume prev (c :: cs) = []) :
    scanAux (f + 1) re prev (c :: cs) = scanAux f re (some c) cs := by
  simp only [scanAux, h]

theorem scanAux_succ_none_nil (f : Nat) (re : RE) (prev : Option Nat)
    (h : re.consume prev [] = []) :
    scanAux (f + 1) re prev [] = [] := by
  simp only [scanAux, h]

theorem scanAux_succ_empty_nil (f : Nat) (re : RE) (prev : Option Nat)
    (p' : Option Nat) (r' : Str) (tl : List (Str × Option Nat × Str))
    (h : re.consume prev [] = ([], p', r') :: tl) :
    scanAux (f + 1) re prev [] = [] := by
  simp [scanAux, h, List.isEmpty]

theorem scanAux_succ_empty_cons (f : Nat) (re : RE) (prev : Option Nat)
    (c : Nat) (cs : Str) (p' : Option Nat) (r' : Str)
    (tl : List (Str × Option Nat × Str))
    (h : re.consume prev (c :: cs) = ([], p', r') :: tl) :
    scanAux (f + 1) re prev (c :: cs) = scanAux f re (some c) cs := by
  simp [scanAux, h, List.isEmpty]

theorem listPrefixAt_append (a b : Str) : listPrefixAt a (a ++ b) = true := by
  induction a with
  | nil => rfl
  | cons x xs ih => simp [listPrefixAt, ih]

theorem listPrefixAt_take : ∀ (a l : Str), listPrefixAt a l = true →
    l.take a.length = a := by
  intro a
  induction a with
  | nil => intro l _; rfl
  | cons x xs ih =>
    intro l h
    cases l with
    | nil => simp [listPrefixAt] at h
    | cons y ys =>
      simp only [listPrefixAt, Bool.and_eq_true, beq_iff_eq] at h
      obtain ⟨h1, h2⟩ := h
      simp [List.take_succ_cons, ← h1, ih ys h2]

theorem listPrefixAt_length : ∀ (a l : Str), listPrefixAt a l = true →
    a.length ≤ l.length := by
  intro a
  induction a with
  | nil => intro l _; simp
  | cons x xs ih =>
    intro l h
    cases l with
    | nil => simp [listPrefixAt] at h
    | cons y ys =>
      simp only [listPrefixAt, Bool.and_eq_true] at h
      have := ih ys h.2
      simp [List.length_cons]; omega

/-- Every match the scanner returns occurs in the scanned text. -/
theorem scanAux_occurs : ∀ (fuel : Nat) (re : RE) (prev : Option Nat)
    (rest m : Str), m ∈ scanAux fuel re prev rest →
    ∃ i, listPrefixAt m (rest.drop i) = true := by
  intro fuel
  induction fuel with
  | zero => intro re prev rest m h; simp [scanAux] at h
  | succ f ih =>
    intro re prev rest m h
    cases hc : re.consume prev rest with
    | nil =>
      cases rest with
      | nil => rw [scanAux_succ_none_nil f re prev hc] at h; simp at h
      | cons c cs =>
        rw [scanAux_succ_none_cons f re prev c cs hc] at h
        obtain ⟨i, hi⟩ := ih re (some c) cs m h
        exact ⟨i + 1, by simpa using hi⟩
    | cons t tl =>
      obtain ⟨mt, p', r'⟩ := t
      cases mt with
      | nil =>
        cases rest with
        | nil => rw [scanAux_succ_empty_nil f re prev p' r' tl hc] at h; simp at h
        | cons c cs =>
          rw [scanAux_succ_empty_cons f re prev c cs p' r' tl hc] at h
          obtain ⟨i, hi⟩ := ih re (some c) cs m h
          exact ⟨i + 1, by simpa using hi⟩
      | cons a as =>
        rw [scanAux_succ_cons f re prev rest a as p' r' tl hc] at h
        have hspec : (a :: as) ++ r' = rest :=
          consume_spec re prev rest (a :: as, p', r') (by rw [hc]; simp)
        rcases List.mem_cons.mp h with h1 | h2
        · refine ⟨0, ?_⟩
          rw [List.drop_zero, h1, ← hspec]
          exact listPrefixAt_append (a :: as) r'
        · obtain ⟨i, hi⟩ := ih re p' r' m h2
          refine ⟨(a :: as).length + i, ?_⟩
          rw [← List.drop_drop i (a :: as).length rest, ← hspec, List.drop_left]
          exact hi

theorem scanMatches_occurs (re : RE) (t : Str) (m : Str)
    (h : m ∈ scanMatches re t) : ∃ i, listPrefixAt m (t.drop i) = true :=
  scanAux_occurs (t.length + 1) re none t m h

theorem jsIndexOfN_spec : ∀ (hay needle : Str) (k : Nat),
    jsIndexOfN hay needle = some k →
    listPrefixAt needle (hay.drop k) = true ∧ k ≤ hay.length ∧
    ∀ j, j < k → listPrefixAt needle (hay.drop j) = false := by
  intro hay
  induction hay with
  | nil =>
    intro needle k h
    by_cases hpre : listPrefixAt needle [] = true
    · simp only [jsIndexOfN, hpre, if_true] at h
      injection h with hk
      subst hk
      exact ⟨hpre, by simp, fun j hj => absurd hj (by omega)⟩
    · simp [jsIndexOfN, hpre] at h
  | cons c tl ih =>
    intro needle k h
    by_cases hpre : listPrefixAt needle (c :: tl) = true
    · simp only [jsIndexOfN, hpre, if_true] at h
      injection h with hk
      subst hk
      exact ⟨hpre, by simp, fun j hj => absurd hj (by omega)⟩
    · have hpre' : listPrefixAt needle (c :: tl) = false := by
        cases hb : listPrefixAt needle (c :: tl)
        · rfl
        · exact absurd hb hpre
      simp only [jsIndexOfN, hpre', Bool.false_eq_true, if_false] at h
      cases hrec : jsIndexOfN tl needle with
      | none => rw [hrec] at h; simp at h
      | some n =>
        rw [hrec] at h
        have hk : n + 1 = k := by simpa using h
        obtain ⟨hp, hb, hmin⟩ := ih needle n hrec
        refine ⟨?_, ?_, ?_⟩
        · rw [← hk]; simpa using hp
        · simp [← hk]; omega
        · intro j hj
          cases j with
          | zero => simpa using hpre'
          | succ j' =>
            have : j' < n := by omega
            simpa using hmin j' this

theorem jsIndexOfN_complete : ∀ (hay needle : Str) (i : Nat),
    listPrefixAt needle (hay.drop i) = true →
    ∃ k, jsIndexOfN hay needle = some k := by
  intro hay
  induction hay with
  | nil =>
    intro needle i h
    simp only [List.drop_nil] at h
    exact ⟨0, by simp [jsIndexOfN, h]⟩
  | cons c tl ih =>
    intro needle i h
    by_cases h0 : listPrefixAt needle (c :: tl) = true
    · exact ⟨0, by simp [jsIndexOfN, h0]⟩
    · cases i with
      | zero => rw [List.drop_zero] at h; exact absurd h h0
      | succ i' =>
        have h' : listPrefixAt needle (tl.drop i') = true := by simpa using h
        obtain ⟨k, hk⟩ := ih needle i' h'
        exact ⟨k + 1, by simp [jsIndexOfN, h0, hk]⟩

/-- Characterization of `indexOf` on a needle that occurs in the haystack:
the result is nonnegative, points at an occurrence, fits in the haystack,
and no earlier position carries an occurrence. -/
theorem jsIndexOf_of_occurs (hay needle : Str) (i : Nat)
    (h : listPrefixAt needle (hay.drop i) = true) :
    0 ≤ jsIndexOf hay needle ∧
    listPrefixAt needle (hay.drop (jsIndexOf hay needle).toNat) = true ∧
    (jsIndexOf hay needle).toNat + needle.length ≤ hay.length ∧
    ∀ j : Nat, (j : Int) < jsIndexOf hay needle →
      listPrefixAt needle (hay.drop j) = false := by
  obtain ⟨k, hk⟩ := jsIndexOfN_complete hay needle i h
  obtain ⟨hp, hb, hmin⟩ := jsIndexOfN_spec hay needle k hk
  have hidx : jsIndexOf hay needle = (k : Int) := by simp [jsIndexOf, hk]
  refine ⟨by rw [hidx]; exact Int.natCast_nonneg k, ?_, ?_, ?_⟩
  · rw [hidx, Int.toNat_natCast]; exact hp
  · rw [hidx, Int.toNat_natCast]
    have hlen := listPrefixAt_length needle (hay.drop k) hp
    rw [List.length_drop] at hlen
    omega
  · intro j hj
    rw [hidx] at hj
    exact hmin j (by exact_mod_cast hj)

theorem mem_foldl_append {α β : Type} (f : α → List β) :
    ∀ (l : List α) (init : List β) (b : β),
      b ∈ l.foldl (fun acc x => acc ++ f x) init →
      b ∈ init ∨ ∃ x ∈ l, b ∈ f x := by
  intro l
  induction l with
  | nil => intro init b h; exact Or.inl h
  | cons x xs ih =>
    intro init b h
    rcases ih (init ++ f x) b h with h1 | ⟨y, hy, hfy⟩
    · rcases List.mem_append.mp h1 with h2 | h3
      · exact Or.inl h2
      · exact Or.inr ⟨x, by simp, h3⟩
    · exact Or.inr ⟨y, by simp [hy], hfy⟩

theorem foldl_append_eq_flatten {α β : Type} (f : α → List β) :
    ∀ (l : List α) (init : List β),
      l.foldl (fun acc x => acc ++ f x) init = init ++ (l.map f).flatten := by
  intro l
  induction l with
  | nil => intro init; simp
  | cons x xs ih => intro init; simp [ih (init ++ f x)]

/-- Every extracted entity arises from a scanner match of one of the six
entity types, carrying `indexOf`-based offsets. -/
theorem mem_extractentities (t : Str) (e : Entity)
    (h : e ∈ extractentities t) :
    ∃ p ∈ entityTypesList, ∃ m ∈ scanMatches p.2 t,
      e = { type := p.1, value := m, start := jsIndexOf t m,
            endPos := jsIndexOf t m + m.length } := by
  unfold extractentities at h
  rcases mem_foldl_append _ entityTypesList [] e h with h1 | ⟨p, hp, hfp⟩
  · simp at h1
  · obtain ⟨m, hm, he⟩ := List.mem_map.mp hfp
    exact ⟨p, hp, m, hm, he.symm⟩

/-!
## Claims C1, C4, C5, C9
-/

/-- C1: the pipeline loses the email.  `preprocessText` strips `@` — absent
from the allow-list `[\w\s.,!?'-]` — so entity extraction over the
normalized text returns no entity at all, although `extractentities`
applied directly to the raw text does return the email entity with the
correct span 12–28.  The allow-list thus defeats the email rule declared in
`entityTypes` of the same file. -/
theorem claim_C1_pipeline_loses_email :
    preprocessText (codes "My email is john@example.com") =
      codes "my email is johnexample.com" ∧
    extractentities (preprocessText (codes "My email is john@example.com")) =
      [] ∧
    extractentities (codes "My email is john@example.com") =
      [Entity.mk "email" (codes "john@example.com") 12 28] :=
  ⟨by decide, by decide, by decide⟩

/-- C4 counterexample: on `"1 1"` the number pattern matches twice (the
occurrences at indices 0 and 2), yet both produced entities carry the span
of the first occurrence — `start 0`, `end 1` — because the source computes
`start` with `text.indexOf(match)`.  Distinct occurrences of an equal value
therefore do not receive distinct spans. -/
theorem claim_C4_counterexample :
    scanMatches numberRE (codes "1 1") = [codes "1", codes "1"] ∧
    extractentities (codes "1 1") =
      [Entity.mk "number" (codes "1") 0 1,
       Entity.mk "number" (codes "1") 0 1] ∧
    ¬ List.Pairwise
        (fun e₁ e₂ => (e₁.start, e₁.endPos) ≠ (e₂.start, e₂.endPos))
        (extractentities (codes "1 1")) :=
  ⟨by decide, by decide, by decide⟩

/-- C4 (amended): for every text, the extractor produces, for each entity
type in declaration order, one entity per regex match of that type, and
each entity's offsets are the span of the FIRST occurrence of its matched
value in the text: `start = indexOf(value)` points at an occurrence, no
earlier position holds one, and `end = start + length(value)`. -/
theorem claim_C4_first_occurrence_spans (t : Str) :
    extractentities t =
      (entityTypesList.map (fun p => (scanMatches p.2 t).map
        (fun m => Entity.mk p.1 m (jsIndexOf t m)
          (jsIndexOf t m + m.length)))).flatten ∧
    ∀ e ∈ extractentities t,
      e.start = jsIndexOf t e.value ∧
      e.endPos = e.start + e.value.length ∧
      listPrefixAt e.value (t.drop e.start.toNat) = true ∧
      ∀ j : Nat, (j : Int) < e.start →
        listPrefixAt e.value (t.drop j) = false := by
  constructor
  · unfold extractentities
    rw [foldl_append_eq_flatten]
    rfl
  · intro e h
    obtain ⟨p, _, m, hm, he⟩ := mem_extractentities t e h
    obtain ⟨i, hi⟩ := scanMatches_occurs p.2 t m hm
    obtain ⟨h0, hpfx, hlen, hmin⟩ := jsIndexOf_of_occurs t m i hi
    subst he
    exact ⟨rfl, rfl, hpfx, hmin⟩

/-- Witness for C4 at the text `"7"` and its single number entity. -/
theorem claim_C4_first_occurrence_spans_witness :
    (Entity.mk "number" (codes "7") 0 1 ∈ extractentities (codes "7")) ∧
    ((Entity.mk "number" (codes "7") 0 1).start =
        jsIndexOf (codes "7") (Entity.mk "number" (codes "7") 0 1).value ∧
      (Entity.mk "number" (codes "7") 0 1).endPos =
        (Entity.mk "number" (codes "7") 0 1).start +
          (Entity.mk "number" (codes "7") 0 1).value.length ∧
      listPrefixAt (Entity.mk "number" (codes "7") 0 1).value
        ((codes "7").drop (Entity.mk "number" (codes "7") 0 1).start.toNat) =
        true ∧
      ∀ j : Nat, (j : Int) < (Entity.mk "number" (codes "7") 0 1).start →
        listPrefixAt (Entity.mk "number" (codes "7") 0 1).value
          ((codes "7").drop j) = false) :=
  ⟨by decide,
   (claim_C4_first_occurrence_spans (codes "7")).2
     (Entity.mk "number" (codes "7") 0 1) (by decide)⟩

/-- C5: entity extraction is deterministic — it is a pure function of the
text, so equal texts always yield equal entity lists, offsets included. -/
theorem claim_C5_deterministic (t₁ t₂ : Str) (h : t₁ = t₂) :
    extractentities t₁ = extractentities t₂ := by rw [h]

/-- Witness for C5 on the text `"2:30"`. -/
theorem claim_C5_deterministic_witness :
    codes "2:30" = codes "2:30" ∧
    extractentities (codes "2:30") = extractentities (codes "2:30") :=
  ⟨rfl, claim_C5_deterministic (codes "2:30") (codes "2:30") rfl⟩

/-- C9: every extracted entity has valid offsets into the text:
`0 ≤ start ≤ end ≤ length`, and the slice of the text from `start` to `end`
is exactly the entity's value. -/
theorem claim_C9_offsets_valid (t : Str) (e : Entity)
    (h : e ∈ extractentities t) :
    0 ≤ e.start ∧ e.start ≤ e.endPos ∧ e.endPos ≤ (t.length : Int) ∧
    (t.drop e.start.toNat).take e.value.length = e.value := by
  obtain ⟨p, _, m, hm, he⟩ := mem_extractentities t e h
  obtain ⟨i, hi⟩ := scanMatches_occurs p.2 t m hm
  obtain ⟨h0, hpfx, hlen, _⟩ := jsIndexOf_of_occurs t m i hi
  subst he
  refine ⟨h0, ?_, ?_, listPrefixAt_take m _ hpfx⟩
  · show jsIndexOf t m ≤ jsIndexOf t m + (m.length : Int)
    omega
  · show jsIndexOf t m + (m.length : Int) ≤ (t.length : Int)
    omega

/-- Witness for C9 at the text `"7"` and its single number entity. -/
theorem claim_C9_offsets_valid_witness :
    (Entity.mk "number" (codes "7") 0 1 ∈ extractentities (codes "7")) ∧
    (0 ≤ (Entity.mk "number" (codes "7") 0 1).start ∧
      (Entity.mk "number" (codes "7") 0 1).start ≤
        (Entity.mk "number" (codes "7") 0 1).endPos ∧
      (Entity.mk "number" (codes "7") 0 1).endPos ≤ ((codes "7").length : Int) ∧
      ((codes "7").drop (Entity.mk "number" (codes "7") 0 1).start.toNat).take
          (Entity.mk "number" (codes "7") 0 1).value.length =
        (Entity.mk "number" (codes "7") 0 1).value) :=
  ⟨by decide,
   claim_C9_offsets_valid (codes "7") (Entity.mk "number" (codes "7") 0 1)
     (by decide)⟩

end JoChatbot
